import Mathlib

/-
Verification of the pdblpi request-batching / response-reconciliation layer.

Shallow embedding of the relevant parts of src/pdblpi/main.py and
src/pdblpi/cde.py.  Machine floats that only carry exact market quantities
are modelled as rationals; pandas NaN cells are modelled as `Option`
(`none` = NaN).  Vendor responses are modelled as structured values whose
fields mirror the dictionary keys the code accesses.
-/

namespace Pdblpi

/-! ### Generic list helpers shared by several embedded functions -/

/-- First-occurrence deduplication with the already-seen values carried
along (structural helper for `uniqueFirst`). -/
def uniqueFirstAux {α : Type} [DecidableEq α] (seen : List α) : List α → List α
  | [] => []
  | a :: l => if a ∈ seen then uniqueFirstAux seen l else a :: uniqueFirstAux (a :: seen) l

/-- First-occurrence deduplication, the order-preserving `unique`
aggregation pandas applies in `groupby(...)['trans_ticker'].agg('unique')`. -/
def uniqueFirst {α : Type} [DecidableEq α] (l : List α) : List α :=
  uniqueFirstAux [] l

/-- First value stored under a key, the dictionary/first-match lookup. -/
def lookupFirst {κ ν : Type} [DecidableEq κ] (rows : List (κ × ν)) (k : κ) : Option ν :=
  (rows.find? (fun r => decide (r.1 = k))).map (fun r => r.2)

/-! ### C10: `_cut_into_chunks_gen` (src/pdblpi/cde.py lines 185-188)

`return (iterable.iloc[i:i + chunk_size] for i in range(0, len(iterable), chunk_size))`

`range(0, n, step)` enumerates `k * step` for `k < ceil(n / step)`, and
`iloc[i:i+c]` is drop-then-take on the row list. -/

/-- The start offsets `range(0, len, chunkSize)` of the chunk generator. -/
def chunkStarts (len chunkSize : Nat) : List Nat :=
  (List.range ((len + chunkSize - 1) / chunkSize)).map (fun k => k * chunkSize)

/-- `_cut_into_chunks_gen`: the dataframe is a list of rows, a chunk is the
slice `iloc[i : i + chunkSize]`. -/
def cutIntoChunksGen {α : Type} (iterable : List α) (chunkSize : Nat) : List (List α) :=
  (chunkStarts iterable.length chunkSize).map
    (fun i => (iterable.drop i).take chunkSize)

/-! ### C9: `_attempt_upload_request` / `_send_upload_requests`
(src/pdblpi/cde.py lines 195-234) -/

/-- One vendor `uploadResponse`: the return status, and the first
notification message when the response carries one (`None` models both a
missing notifications array and any other extraction failure, which the
code turns into `partial = False`). -/
structure UploadResp where
  status : String
  notification : Option String
deriving DecidableEq

/-- `partial` flag computed by `_send_upload_requests`: the first
notification message equals `'WRITE_PARTIALLY_FAILED'`. -/
def isPartialFailure (result : Option UploadResp) : Bool :=
  match result with
  | some resp =>
    match resp.notification with
    | some m => decide (m = "WRITE_PARTIALLY_FAILED")
    | none => false
  | none => false

/-- Whether the `while` guard `result_status_code != 'S_SUCCESS'` fails,
i.e. the loop stops on this response. -/
def respIsSuccess (cur : Option UploadResp) : Bool :=
  match cur with
  | some resp => decide (resp.status = "S_SUCCESS")
  | none => false

/-- The `while result_status_code != 'S_SUCCESS' and attempts_remaining`
loop of `_attempt_upload_request`.  `statuses k` is the vendor response to
the k-th send (0-indexed), `made` counts sends performed so far, `cur` is
the last response seen (`None` before the first send), `remaining` is
`attempts_remaining`.  Returns `(resp, attempts made)`. -/
def attemptUploadLoop (statuses : Nat → UploadResp) :
    Nat → Option UploadResp → Nat → Option UploadResp × Nat
  | made, cur, 0 => (cur, made)
  | made, cur, remaining + 1 =>
    if respIsSuccess cur then (cur, made)
    else attemptUploadLoop statuses (made + 1) (some (statuses made)) remaining

/-- Default retry count of `_attempt_upload_request`. -/
def defaultNumRetries : Nat := 4

/-- `_attempt_upload_request con upload_request num_retries`. -/
def attemptUploadRequest (statuses : Nat → UploadResp) (numRetries : Nat) :
    Option UploadResp × Nat :=
  attemptUploadLoop statuses 0 none numRetries

/-- The status `_attempt_upload_request` returns alongside the response. -/
def resultStatus (result : Option UploadResp) : Option String :=
  result.map (fun r => r.status)

/-- The post-attempt check of `_send_upload_requests`:
`if (status != 'S_SUCCESS') and not partial: raise ValueError(...)`. -/
def sendUploadCheck (result : Option UploadResp) : Except String Unit :=
  if resultStatus result ≠ some "S_SUCCESS" ∧ isPartialFailure result = false then
    Except.error "Upload request failed"
  else Except.ok ()

/-! ### C8: `_check_fieldExceptions` (src/pdblpi/main.py lines 683-690) -/

/-- One entry of the response's `fieldExceptions` array, carrying the
field id and the error-info subcategory the checker inspects. -/
structure FieldException where
  fieldId : String
  subcategory : String
deriving DecidableEq

/-- `_check_fieldExceptions`: iterate over the array and raise
`ValueError('<fieldId>: INVALID_FIELD')` at the first exception whose
subcategory is `'INVALID_FIELD'`. -/
def checkFieldExceptions (fieldExcs : List FieldException) : Except String Unit :=
  match fieldExcs.find? (fun fe => decide (fe.subcategory = "INVALID_FIELD")) with
  | some fe => Except.error (fe.fieldId ++ ": INVALID_FIELD")
  | none => Except.ok ()

/-! ### C7: `_bdh_list` (src/pdblpi/main.py lines 398-437) -/

/-- One entry of `securityData.fieldData` in a `HistoricalDataResponse`:
the inner `fieldData` dictionary always carries a `date` key plus the
requested field values; the loop skips the `'date'` item itself. -/
structure HistFieldData where
  date : String
  items : List (String × String)
deriving DecidableEq

/-- The `securityData` of one `HistoricalDataResponse` message, carrying
exactly the keys `_bdh_list` reads. -/
structure HistSecurityData where
  security : String
  hasSecurityError : Bool
  fieldExceptions : List FieldException
  fieldData : List HistFieldData
deriving DecidableEq

/-- Error raised by `_bdh_list`: `ValueError(d)` carries the offending
response content. -/
inductive BdhError where
  | valueError (d : HistSecurityData)
deriving DecidableEq

/-- Rows `(date, ticker, fname, value)` appended for one good message:
one row per non-`'date'` item of each `fieldData` entry. -/
def histRows (d : HistSecurityData) : List (String × String × String × String) :=
  d.fieldData.flatMap (fun fd =>
    (fd.items.filter (fun it => decide (it.1 ≠ "date"))).map
      (fun it => (fd.date, d.security, it.1, it.2)))

/-- `_bdh_list`'s event loop: for each message, raise `ValueError(d)` when
the security data has a `securityError` or a non-empty `fieldExceptions`
array, otherwise append the field rows. -/
def bdhList : List HistSecurityData → Except BdhError (List (String × String × String × String))
  | [] => Except.ok []
  | d :: rest =>
    if d.hasSecurityError ∨ d.fieldExceptions.length > 0 then
      Except.error (BdhError.valueError d)
    else
      match bdhList rest with
      | Except.error e => Except.error e
      | Except.ok tail => Except.ok (histRows d ++ tail)

/-! ### C3: `_parse_ref` (lines 529-577) and `_parse_bulkref` (lines 642-681) -/

/-- A value stored under a field key in `fieldData`: scalar reference
data, or a bulk array of named-tuple dictionaries. -/
inductive FieldVal where
  | scalar (s : String)
  | bulk (rows : List (List (String × String)))
deriving DecidableEq

/-- A cell of the long output: a genuine value, the
`'security not found'` sentinel string, or `np.NaN`. -/
inductive BVal where
  | strv (s : String)
  | natv (n : Nat)
  | secNotFound
  | nan
deriving DecidableEq

/-- The `securityData` of one `ReferenceDataResponse` entry, with the
keys `_parse_ref` / `_parse_bulkref` read. -/
structure SecData where
  security : String
  hasSecurityError : Bool
  fieldExceptions : List FieldException
  fieldData : List (String × FieldVal)
deriving DecidableEq

/-- `na_val` chosen by the parsers: the sentinel string when the security
carries a `securityError`, `np.NaN` otherwise. -/
def refNaVal (hasSecurityError : Bool) : BVal :=
  if hasSecurityError then BVal.secNotFound else BVal.nan

/-- Dictionary lookup `fieldData[fld]` (`fld in fieldData` = `isSome`). -/
def lookupField (fieldData : List (String × FieldVal)) (fld : String) : Option FieldVal :=
  lookupFirst fieldData fld

/-- The `for fld in flds` loop of `_parse_ref` for one security: bulk
values raise, present scalars are emitted, absent fields get `na_val`. -/
def parseRefFields (naVal : BVal) (security : String)
    (fieldData : List (String × FieldVal)) :
    List String → Except String (List (String × String × BVal))
  | [] => Except.ok []
  | fld :: rest =>
    match lookupField fieldData fld with
    | some (FieldVal.bulk _) =>
      Except.error ("Field " ++ fld ++ " returns bulk reference data which is not supported")
    | some (FieldVal.scalar s) =>
      match parseRefFields naVal security fieldData rest with
      | Except.error e => Except.error e
      | Except.ok tail => Except.ok ((security, fld, BVal.strv s) :: tail)
    | none =>
      match parseRefFields naVal security fieldData rest with
      | Except.error e => Except.error e
      | Except.ok tail => Except.ok ((security, fld, naVal) :: tail)

/-- `_parse_ref` body for one `securityData` entry: choose `na_val`,
check the field exceptions, then walk the requested fields. -/
def parseRefSec (flds : List String) (sd : SecData) :
    Except String (List (String × String × BVal)) :=
  match checkFieldExceptions sd.fieldExceptions with
  | Except.error e => Except.error e
  | Except.ok _ => parseRefFields (refNaVal sd.hasSecurityError) sd.security sd.fieldData flds

/-- `_parse_ref` over the stream of `securityData` entries of all
received events, in order. -/
def parseRefSecs (flds : List String) :
    List SecData → Except String (List (String × String × BVal))
  | [] => Except.ok []
  | sd :: rest =>
    match parseRefSec flds sd with
    | Except.error e => Except.error e
    | Except.ok rows =>
      match parseRefSecs flds rest with
      | Except.error e => Except.error e
      | Except.ok tail => Except.ok (rows ++ tail)

/-- `_parse_ref flds`: each received event carries a list of
`securityData` entries; the loop concatenates them in arrival order. -/
def parseRef (flds : List String) (msgs : List (List SecData)) :
    Except String (List (String × String × BVal)) :=
  parseRefSecs flds msgs.flatten

/-- Rows `(ticker, fld, name, value, position)` emitted by
`_parse_bulkref` for one present bulk field. -/
def bulkRows (security fld : String) (rows : List (List (String × String))) :
    List (String × String × BVal × BVal × BVal) :=
  rows.enum.flatMap (fun ir =>
    ir.2.map (fun nv => (security, fld, BVal.strv nv.1, BVal.strv nv.2, BVal.natv ir.1)))

/-- The `for fld in flds` loop of `_parse_bulkref` for one security:
scalar values raise, present bulk fields fan out into rows, absent fields
get a single all-`na_val` row. -/
def parseBulkrefFields (naVal : BVal) (security : String)
    (fieldData : List (String × FieldVal)) :
    List String → Except String (List (String × String × BVal × BVal × BVal))
  | [] => Except.ok []
  | fld :: rest =>
    match lookupField fieldData fld with
    | some (FieldVal.scalar _) =>
      Except.error ("Cannot parse field " ++ fld ++ " which is not bulk reference data")
    | some (FieldVal.bulk rows) =>
      match parseBulkrefFields naVal security fieldData rest with
      | Except.error e => Except.error e
      | Except.ok tail => Except.ok (bulkRows security fld rows ++ tail)
    | none =>
      match parseBulkrefFields naVal security fieldData rest with
      | Except.error e => Except.error e
      | Except.ok tail => Except.ok ((security, fld, naVal, naVal, naVal) :: tail)

/-- `_parse_bulkref` body for one `securityData` entry. -/
def parseBulkrefSec (flds : List String) (sd : SecData) :
    Except String (List (String × String × BVal × BVal × BVal)) :=
  match checkFieldExceptions sd.fieldExceptions with
  | Except.error e => Except.error e
  | Except.ok _ => parseBulkrefFields (refNaVal sd.hasSecurityError) sd.security sd.fieldData flds

/-- `_parse_bulkref` over the stream of `securityData` entries. -/
def parseBulkrefSecs (flds : List String) :
    List SecData → Except String (List (String × String × BVal × BVal × BVal))
  | [] => Except.ok []
  | sd :: rest =>
    match parseBulkrefSec flds sd with
    | Except.error e => Except.error e
    | Except.ok rows =>
      match parseBulkrefSecs flds rest with
      | Except.error e => Except.error e
      | Except.ok tail => Except.ok (rows ++ tail)

/-- `_parse_bulkref flds` over the received events. -/
def parseBulkref (flds : List String) (msgs : List (List SecData)) :
    Except String (List (String × String × BVal × BVal × BVal)) :=
  parseBulkrefSecs flds msgs.flatten

/-- The row `_parse_ref` emits for field `fld` of security `sd` when
nothing raises, written from the claim: present scalar fields keep their
value; absent fields get the `'security not found'` sentinel when the
security carries a `securityError` and `NaN` otherwise. -/
def refExpectedRow (sd : SecData) (fld : String) : String × String × BVal :=
  match lookupField sd.fieldData fld with
  | some (FieldVal.scalar s) => (sd.security, fld, BVal.strv s)
  | _ => (sd.security, fld,
      if sd.hasSecurityError then BVal.secNotFound else BVal.nan)

/-- The full `_parse_ref` output under the claim's reading. -/
def refExpectedRows (flds : List String) (sds : List SecData) :
    List (String × String × BVal) :=
  sds.flatMap (fun sd => flds.map (refExpectedRow sd))

/-- The row block `_parse_bulkref` emits for field `fld` of security
`sd` when nothing raises, written from the claim. -/
def bulkrefExpectedRows (sd : SecData) (fld : String) :
    List (String × String × BVal × BVal × BVal) :=
  match lookupField sd.fieldData fld with
  | some (FieldVal.bulk rows) => bulkRows sd.security fld rows
  | _ => [(sd.security, fld, refNaVal sd.hasSecurityError,
      refNaVal sd.hasSecurityError, refNaVal sd.hasSecurityError)]

/-- The full `_parse_bulkref` output under the claim's reading. -/
def bulkrefExpectedAll (flds : List String) (sds : List SecData) :
    List (String × String × BVal × BVal × BVal) :=
  sds.flatMap (fun sd => flds.flatMap (bulkrefExpectedRows sd))

/-! ### C6: `_parse_tickers` (src/pdblpi/main.py lines 1986-2023)

Tickers are ASCII identifier strings; `str.upper` / `str.strip` are
modelled on chars, and the two regexes `^[A-Z]{2}([A-Z0-9]){9}[0-9]`
(`re.match`, i.e. a prefix match) and `[ ][A-Z0-9]{2}[ ]` (leftmost
occurrence, only its first match is used) are modelled directly. -/

/-- Python `str` whitespace (`strip()` / `split()` default separators). -/
def isPySpace (c : Char) : Bool :=
  decide (c = ' ') || decide (c = '\t') || decide (c = '\n') ||
  decide (c = '\r') || decide (c = '\x0b') || decide (c = '\x0c')

/-- `str.strip()` on the char list. -/
def stripChars (cs : List Char) : List Char :=
  ((cs.dropWhile isPySpace).reverse.dropWhile isPySpace).reverse

/-- The char class `[A-Z]`. -/
def isUpperAlpha (c : Char) : Bool := decide ('A' ≤ c) && decide (c ≤ 'Z')

/-- The char class `[0-9]`. -/
def isDigitChar (c : Char) : Bool := decide ('0' ≤ c) && decide (c ≤ '9')

/-- The char class `[A-Z0-9]`. -/
def isUpperAlnum (c : Char) : Bool := isUpperAlpha c || isDigitChar c

/-- `re.match` of the ISIN pattern `^[A-Z]{2}([A-Z0-9]){9}[0-9]`:
a prefix of two letters, nine alphanumerics and a digit. -/
def isinMatch (cs : List Char) : Bool :=
  match cs with
  | c1 :: c2 :: rest =>
    isUpperAlpha c1 && isUpperAlpha c2 &&
    decide ((rest.take 9).length = 9) && (rest.take 9).all isUpperAlnum &&
    (match rest.drop 9 with
     | d :: _ => isDigitChar d
     | [] => false)
  | _ => false

/-- Leftmost match of the exchange-code pattern `[ ][A-Z0-9]{2}[ ]`,
returning the two code characters. -/
def exchFind : List Char → Option (List Char)
  | a :: b :: c :: d :: rest =>
    if a = ' ' ∧ isUpperAlnum b ∧ isUpperAlnum c ∧ d = ' ' then some [b, c]
    else exchFind (b :: c :: d :: rest)
  | _ => none

/-- `ticker.split()[0]`: the first whitespace-separated token. -/
def firstToken (cs : List Char) : List Char :=
  (cs.dropWhile isPySpace).takeWhile (fun c => ! isPySpace c)

/-- Whether `pat` occurs as a contiguous substring (`pat in ticker`). -/
def containsSub (pat : List Char) : List Char → Bool
  | [] => decide (([] : List Char).take pat.length = pat)
  | c :: rest =>
    decide (((c :: rest).take pat.length) = pat) || containsSub pat rest

/-- The `' ' + e[0].strip()` suffix appended after the identifier when the
exchange-code pattern matches, `''` otherwise (the two matched code
characters are never whitespace, so `strip` leaves them unchanged). -/
def exchSuffix (cs : List Char) : List Char :=
  match exchFind cs with
  | some ex => ' ' :: ex
  | none => []

/-- `_parse_tickers` body for one ticker, applied after
`str(t).upper().strip()`. -/
def parseTicker (t : String) : String :=
  let ticker := stripChars (t.map Char.toUpper).toList
  if isinMatch ticker then
    String.mk ("/isin/".toList ++ firstToken ticker ++ exchSuffix ticker)
  else if containsSub " SEDOL".toList ticker then
    String.mk ("/sedol/".toList ++ firstToken ticker ++ exchSuffix ticker)
  else
    String.mk ticker

/-- `_parse_tickers`: normalise every ticker of the list in order. -/
def parseTickers (tickers : List String) : List String :=
  tickers.map parseTicker

/-- The ISIN test as the claim words it: the first twelve characters are
two letters, nine alphanumerics and a digit. -/
def claimIsinTest (cs : List Char) : Bool :=
  match cs.take 12 with
  | [c1, c2, a1, a2, a3, a4, a5, a6, a7, a8, a9, d] =>
    isUpperAlpha c1 && isUpperAlpha c2 &&
    [a1, a2, a3, a4, a5, a6, a7, a8, a9].all isUpperAlnum && isDigitChar d
  | _ => false

/-- Per-ticker normalisation as the claim words it: on the uppercased,
stripped form, an ISIN becomes `/isin/` + first token + optional
exchange-code suffix, a `' SEDOL'` input becomes `/sedol/` + first token
+ optional suffix, anything else is returned as is. -/
def claimNormalize (t : String) : String :=
  let u := stripChars (t.map Char.toUpper).toList
  if claimIsinTest u then
    String.mk ("/isin/".toList ++ firstToken u ++ exchSuffix u)
  else if containsSub " SEDOL".toList u then
    String.mk ("/sedol/".toList ++ firstToken u ++ exchSuffix u)
  else
    String.mk u

/-! ### C1 / C2: `_BDP` (src/pdblpi/main.py lines 1297-1369)

An override combination (one row of `params_df`'s override columns,
including the constant `dummy` column) is a list of override values, one
per override name in a fixed name order.  The vendor is modelled as a
function `v` giving the single reference value of a (translated ticker,
override combination) pair: `con.ref` returns exactly one row per
requested security for the single requested field. -/

/-- One override combination: the tuple of override values. -/
abbrev Combo : Type := List String

/-- `params_df.groupby(ovrd_names)['trans_ticker'].agg('unique')` for one
group: the distinct translated tickers whose override row equals `c`, in
first-occurrence order. -/
def groupUniqueTickers (input : List (String × Combo)) (c : Combo) : List String :=
  uniqueFirst ((input.filter (fun p => decide (p.2 = c))).map Prod.fst)

/-- The `con.ref` round-trips `_BDP` issues: one per distinct override
combination, carrying that group's unique securities. -/
def refCalls (input : List (String × Combo)) : List (Combo × List String) :=
  (uniqueFirst (input.map Prod.snd)).map (fun c => (c, groupUniqueTickers input c))

/-- `all_data` accumulated over the round-trips: each call contributes one
row per security, keyed by (translated ticker, override combination). -/
def allRefData (input : List (String × Combo)) (v : String → Combo → String) :
    List ((String × Combo) × String) :=
  (refCalls input).flatMap (fun call =>
    call.2.map (fun t => ((t, call.1), v t call.1)))

/-- `inp_df.merge(all_data, how='left', validate='m:1', on=keys)`:
with right keys unique, the left merge keeps every left row in order and
attaches the matching right value (`NaN` = `none` when unmatched). -/
def mergeLeftM1 {κ ν : Type} [DecidableEq κ] (left : List κ) (right : List (κ × ν)) :
    List (κ × Option ν) :=
  left.map (fun k => (k, lookupFirst right k))

/-- The post-merge check of `_BDP`:
`if inp_df.shape[0] != len(tickers): raise ValueError(...)`, then
`output = inp_df['value'].tolist()`. -/
def reconcileCheck {κ ν : Type} (numbTickers : Nat) (merged : List (κ × Option ν)) :
    Except String (List (Option ν)) :=
  if merged.length ≠ numbTickers then
    Except.error "uneven length of response tickers to request tickers"
  else Except.ok (merged.map Prod.snd)

/-- `_BDP`'s reconciliation: group, call, merge back onto the input rows,
check the row count, return the value column. -/
def bdpOutput (input : List (String × Combo)) (v : String → Combo → String) :
    Except String (List (Option String)) :=
  reconcileCheck input.length (mergeLeftM1 input (allRefData input v))

/-! ### C4 / C5: `_bbat` (src/pdblpi/main.py lines 2025-2287)

Prices, sizes and second counts are exact market quantities, modelled as
rationals; a NaN cell is `none`.  `expanding().sum()` over an all-present
column is the running prefix sum.  Rational division by zero is `0` on
both the code side and the claim side, so quotient formulas are compared
with the same denominators. -/

/-- `col.expanding().sum()` at row `i` for an all-present column. -/
def expandingSum (l : List ℚ) (i : Nat) : ℚ := (l.take (i + 1)).sum

/-- The non-summary `vwap` column (line 2176):
`(TRADE_SIZE.expanding().sum() * TRADE_VALUE.expanding().sum()) / TRADE_SIZE.expanding().sum()`,
for a window where every row carries a trade. -/
def vwapColumnCode (sizes values : List ℚ) : List ℚ :=
  (List.range sizes.length).map (fun i =>
    expandingSum sizes i * expandingSum values i / expandingSum sizes i)

/-- The `vwap` column as the claim states it: cumulative sum of
(trade size times trade value) divided by cumulative sum of trade size. -/
def vwapColumnClaim (sizes values : List ℚ) : List ℚ :=
  (List.range sizes.length).map (fun i =>
    expandingSum (List.zipWith (· * ·) sizes values) i / expandingSum sizes i)

/-- The summary `vwap` statistic (line 2227):
`TRADE_SIZE.dot(TRADE_VALUE) / TRADE_SIZE.sum()` after both columns are
`fillna(0)` (modelled by listing the filled columns). -/
def vwapSummaryCode (sizes values : List ℚ) : ℚ :=
  (List.zipWith (· * ·) sizes values).sum / sizes.sum

/-- One row of the quote timeline entering the statistics: ticker, the
calendar date of the timestamp, the timestamp in seconds, and the
`bid_ask_spread_bps` cell (`none` = NaN). -/
structure BbatRow where
  ticker : String
  day : Int
  time : ℚ
  spreadBps : Option ℚ
deriving DecidableEq

/-- Two rows fall in the same `groupby([ticker, time.dt.date])` group. -/
def sameGroup (a b : BbatRow) : Bool :=
  decide (a.ticker = b.ticker) && decide (a.day = b.day)

/-- `groupby([ticker, date])['time'].diff()`: the difference to the
previous row of the same group (`prev` is that previous row when the
groups are contiguous, which the preceding
`sort_values(by=['ticker', 'time'])` guarantees). -/
def groupDiffAux : Option BbatRow → List BbatRow → List (Option ℚ)
  | _, [] => []
  | prev, r :: rest =>
    (match prev with
     | some p => if sameGroup p r then some (r.time - p.time) else none
     | none => none) :: groupDiffAux (some r) rest

/-- The full `diff()` column. -/
def quoteLifeDiff (rows : List BbatRow) : List (Option ℚ) := groupDiffAux none rows

/-- `.shift(-1)`: every row takes the next row's cell, the last row NaN. -/
def shiftUp : List (Option ℚ) → List (Option ℚ)
  | [] => []
  | _ :: rest => rest ++ [none]

/-- The `quote_life_secs` column (line 2156):
`groupby([ticker, date])['time'].diff().shift(-1)` in seconds. -/
def quoteLifeCode (rows : List BbatRow) : List (Option ℚ) :=
  shiftUp (quoteLifeDiff rows)

/-- A quote's lifetime as the claim words it: the time difference to the
next row within the same ticker and calendar date, undefined for the last
such row. -/
def quoteLifeClaim : List BbatRow → List (Option ℚ)
  | [] => []
  | [_] => [none]
  | r :: s :: rest =>
    (if sameGroup r s then some (s.time - r.time) else none) :: quoteLifeClaim (s :: rest)

/-- The `adj_quote_life_secs` cell after the summary branch's
`fillna(0)` (lines 2157-2158 and 2193): zero when the row has no valid
spread, else the quote lifetime with NaN as zero. -/
def adjQuoteLife (spread life : Option ℚ) : ℚ :=
  match spread with
  | none => 0
  | some _ => life.getD 0

/-- The summary `twa_spread_bps` statistic (lines 2192-2195): with
`bid_ask_spread_bps` and `adj_quote_life_secs` both `fillna(0)`,
`sum_bas = bid_ask_spread_bps * adj_quote_life_secs` and
`twas = sum_bas.sum() / adj_quote_life_secs.sum()`. -/
def twaSpreadBpsCode (spreads lifes : List (Option ℚ)) : ℚ :=
  (List.zipWith (· * ·) (spreads.map (fun s => s.getD 0))
    (List.zipWith adjQuoteLife spreads lifes)).sum /
  (List.zipWith adjQuoteLife spreads lifes).sum

/-- `twa_spread_bps` as the claim words it: the sum over rows of (spread
in basis points times the adjusted quote lifetime, zero seconds for rows
with no valid spread) divided by the sum of the adjusted lifetimes, with
lifetimes taken from the next-row difference within the group. -/
def twaSpreadBpsClaim (rows : List BbatRow) : ℚ :=
  (List.zipWith
      (fun (s : Option ℚ) (t : Option ℚ) =>
        match s with
        | none => (0 : ℚ)
        | some sv => sv * t.getD 0)
      (rows.map (fun r => r.spreadBps)) (quoteLifeClaim rows)).sum /
  (List.zipWith adjQuoteLife (rows.map (fun r => r.spreadBps)) (quoteLifeClaim rows)).sum

/-! ## Helper lemmas -/

theorem mem_uniqueFirstAux {α : Type} [DecidableEq α] (l : List α) :
    ∀ (seen : List α) (a : α), a ∈ uniqueFirstAux seen l ↔ a ∈ l ∧ a ∉ seen := by
  induction l with
  | nil => intro seen a; simp [uniqueFirstAux]
  | cons b t ih =>
    intro seen a
    by_cases hb : b ∈ seen
    · rw [uniqueFirstAux, if_pos hb, ih seen a]
      constructor
      · rintro ⟨h1, h2⟩
        exact ⟨List.mem_cons_of_mem b h1, h2⟩
      · rintro ⟨h1, h2⟩
        rcases List.mem_cons.mp h1 with rfl | h1
        · exact absurd hb h2
        · exact ⟨h1, h2⟩
    · rw [uniqueFirstAux, if_neg hb, List.mem_cons, ih (b :: seen) a]
      constructor
      · rintro (rfl | ⟨h1, h2⟩)
        · exact ⟨List.mem_cons_self a t, hb⟩
        · exact ⟨List.mem_cons_of_mem b h1, fun hs => h2 (List.mem_cons_of_mem b hs)⟩
      · rintro ⟨h1, h2⟩
        rcases List.mem_cons.mp h1 with rfl | h1
        · exact Or.inl rfl
        · by_cases hab : a = b
          · exact Or.inl hab
          · refine Or.inr ⟨h1, ?_⟩
            intro hmem
            rcases List.mem_cons.mp hmem with h | h
            · exact hab h
            · exact h2 h

theorem mem_uniqueFirst {α : Type} [DecidableEq α] (l : List α) (a : α) :
    a ∈ uniqueFirst l ↔ a ∈ l := by
  rw [uniqueFirst, mem_uniqueFirstAux]
  simp

theorem nodup_uniqueFirstAux {α : Type} [DecidableEq α] (l : List α) :
    ∀ seen : List α, (uniqueFirstAux seen l).Nodup := by
  induction l with
  | nil => intro seen; simp [uniqueFirstAux]
  | cons b t ih =>
    intro seen
    by_cases hb : b ∈ seen
    · rw [uniqueFirstAux, if_pos hb]; exact ih seen
    · rw [uniqueFirstAux, if_neg hb]
      refine List.nodup_cons.mpr ⟨?_, ih (b :: seen)⟩
      intro hmem
      exact ((mem_uniqueFirstAux t (b :: seen) b).mp hmem).2 (List.mem_cons_self b seen)

theorem nodup_uniqueFirst {α : Type} [DecidableEq α] (l : List α) :
    (uniqueFirst l).Nodup :=
  nodup_uniqueFirstAux l []

theorem checkFieldExceptions_ok_of (fieldExcs : List FieldException)
    (h : ∀ fe ∈ fieldExcs, fe.subcategory ≠ "INVALID_FIELD") :
    checkFieldExceptions fieldExcs = Except.ok () := by
  unfold checkFieldExceptions
  cases hf : fieldExcs.find? (fun fe => decide (fe.subcategory = "INVALID_FIELD")) with
  | none => rfl
  | some fe =>
    have h1 := List.find?_some hf
    have h2 := List.mem_of_find?_eq_some hf
    simp only [decide_eq_true_eq] at h1
    exact absurd h1 (h fe h2)

/-! ## C8 -/

/-- C8: `_check_fieldExceptions` raises a `ValueError` if and only if at
least one field exception in the response has error subcategory
`'INVALID_FIELD'`; otherwise it returns normally. -/
theorem checkFieldExceptions_invalid_field_iff (fieldExcs : List FieldException) :
    ((∃ e, checkFieldExceptions fieldExcs = Except.error e) ↔
      ∃ fe ∈ fieldExcs, fe.subcategory = "INVALID_FIELD")
    ∧ (checkFieldExceptions fieldExcs = Except.ok () ↔
      ∀ fe ∈ fieldExcs, fe.subcategory ≠ "INVALID_FIELD") := by
  constructor
  · constructor
    · rintro ⟨e, he⟩
      unfold checkFieldExceptions at he
      cases hf : fieldExcs.find? (fun fe => decide (fe.subcategory = "INVALID_FIELD")) with
      | none => rw [hf] at he; exact absurd he (by simp)
      | some fe =>
        have h1 := List.find?_some hf
        have h2 := List.mem_of_find?_eq_some hf
        simp only [decide_eq_true_eq] at h1
        exact ⟨fe, h2, h1⟩
    · rintro ⟨fe, hmem, hsub⟩
      unfold checkFieldExceptions
      cases hf : fieldExcs.find? (fun fe => decide (fe.subcategory = "INVALID_FIELD")) with
      | none =>
        have := List.find?_eq_none.mp hf fe hmem
        simp [hsub] at this
      | some fe2 => exact ⟨fe2.fieldId ++ ": INVALID_FIELD", rfl⟩
  · constructor
    · intro hok fe hmem hsub
      unfold checkFieldExceptions at hok
      cases hf : fieldExcs.find? (fun fe => decide (fe.subcategory = "INVALID_FIELD")) with
      | none =>
        have := List.find?_eq_none.mp hf fe hmem
        simp [hsub] at this
      | some fe2 => rw [hf] at hok; exact absurd hok (by simp)
    · exact checkFieldExceptions_ok_of fieldExcs

/-! ## C4 -/

/-- C4: code bug in the non-summary `vwap` column.  On trades of sizes
`[1, 2]` and values `[10, 20]` the code's column formula
`(Σ size · Σ value) / Σ size` yields `30` at the second row (it reduces
to the running sum of trade values), while the claimed cumulative
volume-weighted average `Σ(size · value) / Σ size` is `50/3`; the summary
statistic does follow the claimed dot-product formula. -/
theorem vwap_column_code_bug :
    vwapColumnCode [1, 2] [10, 20] = [10, 30]
    ∧ vwapColumnClaim [1, 2] [10, 20] = [10, 50 / 3]
    ∧ vwapSummaryCode [1, 2] [10, 20] = 50 / 3
    ∧ vwapColumnCode [1, 2] [10, 20] ≠ vwapColumnClaim [1, 2] [10, 20] := by
  refine ⟨?_, ?_, ?_, ?_⟩ <;>
    norm_num [vwapColumnCode, vwapColumnClaim, vwapSummaryCode, expandingSum,
      List.range_succ, List.zipWith]

/-! ## C9 -/

theorem attemptUploadLoop_made_le (statuses : Nat → UploadResp) (r : Nat) :
    ∀ (made : Nat) (cur : Option UploadResp),
      (attemptUploadLoop statuses made cur r).2 ≤ made + r := by
  induction r with
  | zero => intro made cur; simp [attemptUploadLoop]
  | succ r ih =>
    intro made cur
    rw [attemptUploadLoop]
    by_cases h : respIsSuccess cur
    · simp [h]
    · simp [h]
      have := ih (made + 1) (some (statuses made))
      omega

/-- C9: each chunk upload is attempted at most 4 times (the default
retry count); the attempt loop stops as soon as a response with return
status `'S_SUCCESS'` arrives; and when the attempts are exhausted with a
final status other than `'S_SUCCESS'` and no partial-write notification,
`_send_upload_requests` raises a `ValueError`. -/
theorem attempt_upload_retry_spec (statuses : Nat → UploadResp) :
    ((attemptUploadRequest statuses defaultNumRetries).2 ≤ 4)
    ∧ (∀ k, k < 4 → (statuses k).status = "S_SUCCESS" →
        (∀ j, j < k → (statuses j).status ≠ "S_SUCCESS") →
        attemptUploadRequest statuses defaultNumRetries = (some (statuses k), k + 1))
    ∧ ((∀ j, j < 4 → (statuses j).status ≠ "S_SUCCESS") →
        attemptUploadRequest statuses defaultNumRetries = (some (statuses 3), 4))
    ∧ (∀ result : Option UploadResp,
        resultStatus result ≠ some "S_SUCCESS" → isPartialFailure result = false →
        sendUploadCheck result = Except.error "Upload request failed") := by
  refine ⟨?_, ?_, ?_, ?_⟩
  · exact attemptUploadLoop_made_le statuses defaultNumRetries 0 none
  · intro k hk hsucc hfail
    interval_cases k
    · simp [attemptUploadRequest, defaultNumRetries, attemptUploadLoop, respIsSuccess, hsucc]
    · have h0 := hfail 0 (by omega)
      simp [attemptUploadRequest, defaultNumRetries, attemptUploadLoop, respIsSuccess, hsucc, h0]
    · have h0 := hfail 0 (by omega)
      have h1 := hfail 1 (by omega)
      simp [attemptUploadRequest, defaultNumRetries, attemptUploadLoop, respIsSuccess,
        hsucc, h0, h1]
    · have h0 := hfail 0 (by omega)
      have h1 := hfail 1 (by omega)
      have h2 := hfail 2 (by omega)
      simp [attemptUploadRequest, defaultNumRetries, attemptUploadLoop, respIsSuccess,
        hsucc, h0, h1, h2]
  · intro hfail
    have h0 := hfail 0 (by omega)
    have h1 := hfail 1 (by omega)
    have h2 := hfail 2 (by omega)
    have h3 := hfail 3 (by omega)
    simp [attemptUploadRequest, defaultNumRetries, attemptUploadLoop, respIsSuccess,
      h0, h1, h2, h3]
  · intro result hstatus hpartialFlag
    simp [sendUploadCheck, hstatus, hpartialFlag]

/-- Witness for C9 at a concrete response sequence: success on the second
attempt stops the loop after two sends, and a failed non-partial result
makes the upload check raise. -/
theorem attempt_upload_retry_spec_witness :
    attemptUploadRequest
        (fun k => ⟨if k = 1 then "S_SUCCESS" else "FAIL", none⟩) defaultNumRetries
      = (some ⟨"S_SUCCESS", none⟩, 2)
    ∧ sendUploadCheck (some ⟨"FAIL", none⟩) = Except.error "Upload request failed" := by
  constructor
  · have h := (attempt_upload_retry_spec
        (fun k => ⟨if k = 1 then "S_SUCCESS" else "FAIL", none⟩)).2.1 1
      (by omega) (by simp) (by intro j hj; interval_cases j; simp)
    simpa using h
  · exact (attempt_upload_retry_spec (fun _ => ⟨"FAIL", none⟩)).2.2.2
      (some ⟨"FAIL", none⟩) (by decide) (by decide)

/-! ## C10 -/

theorem ceil_div_succ (len cs : Nat) (h0 : 0 < len) (hcs : 0 < cs) :
    (len + cs - 1) / cs = (len - cs + cs - 1) / cs + 1 := by
  rcases Nat.lt_or_ge len cs with h | h
  · have h1 : len - cs = 0 := Nat.sub_eq_zero_of_le (le_of_lt h)
    rw [h1, Nat.zero_add]
    have h2 : (cs - 1) / cs = 0 := Nat.div_eq_of_lt (by omega)
    rw [h2]
    have h3 : len + cs - 1 = (len - 1) + cs := by omega
    rw [h3, Nat.add_div_right _ hcs]
    have h4 : (len - 1) / cs = 0 := Nat.div_eq_of_lt (by omega)
    omega
  · have h3 : len + cs - 1 = (len - 1) + cs := by omega
    have h5 : len - cs + cs - 1 = len - 1 := by omega
    rw [h3, h5, Nat.add_div_right _ hcs]

theorem cutIntoChunksGen_nil {α : Type} (cs : Nat) (hcs : 0 < cs) :
    cutIntoChunksGen ([] : List α) cs = [] := by
  have h : (cs - 1) / cs = 0 := Nat.div_eq_of_lt (by omega)
  have h2 : (0 + cs - 1) / cs = 0 := by rw [Nat.zero_add]; exact h
  simp [cutIntoChunksGen, chunkStarts, h, h2]

theorem cutIntoChunksGen_cons {α : Type} (l : List α) (cs : Nat)
    (hcs : 0 < cs) (hl : l ≠ []) :
    cutIntoChunksGen l cs = l.take cs :: cutIntoChunksGen (l.drop cs) cs := by
  have h0 : 0 < l.length := List.length_pos.mpr hl
  unfold cutIntoChunksGen chunkStarts
  rw [List.length_drop, ceil_div_succ l.length cs h0 hcs, List.range_succ_eq_map]
  simp only [List.map_cons, List.map_map, Nat.zero_mul, List.drop_zero]
  refine congrArg (l.take cs :: ·) ?_
  refine List.map_congr_left ?_
  intro k _
  simp only [Function.comp]
  rw [List.drop_drop, Nat.succ_mul]
  ring_nf

/-- C10: for every row list and positive chunk size, the chunk generator
produces consecutive slices whose in-order concatenation is the input,
every chunk except possibly the last has exactly the chunk size, and
every chunk is non-empty and no longer than the chunk size. -/
theorem cut_into_chunks_round_trip {α : Type} (l : List α) (n : Nat) (hn : 0 < n) :
    (cutIntoChunksGen l n).flatten = l
    ∧ (∀ c ∈ (cutIntoChunksGen l n).dropLast, c.length = n)
    ∧ (∀ c ∈ cutIntoChunksGen l n, c ≠ [] ∧ c.length ≤ n) := by
  suffices h : ∀ (fuel : Nat) (l : List α), l.length ≤ fuel →
      (cutIntoChunksGen l n).flatten = l
      ∧ (∀ c ∈ (cutIntoChunksGen l n).dropLast, c.length = n)
      ∧ (∀ c ∈ cutIntoChunksGen l n, c ≠ [] ∧ c.length ≤ n) from
    h l.length l le_rfl
  intro fuel
  induction fuel with
  | zero =>
    intro l hl
    have hnil : l = [] := List.eq_nil_of_length_eq_zero (by omega)
    subst hnil
    simp [cutIntoChunksGen_nil n hn]
  | succ fuel ih =>
    intro l hl
    by_cases hnil : l = []
    · subst hnil
      simp [cutIntoChunksGen_nil n hn]
    · rw [cutIntoChunksGen_cons l n hn hnil]
      have hpos : 0 < l.length := List.length_pos.mpr hnil
      have hdrop : (l.drop n).length ≤ fuel := by
        rw [List.length_drop]; omega
      obtain ⟨ih1, ih2, ih3⟩ := ih (l.drop n) hdrop
      refine ⟨?_, ?_, ?_⟩
      · rw [List.flatten_cons, ih1]
        exact List.take_append_drop n l
      · intro c hc
        cases hrest : cutIntoChunksGen (l.drop n) n with
        | nil => rw [hrest] at hc; simp at hc
        | cons c0 cs0 =>
          rw [hrest] at hc
          rw [List.dropLast_cons₂] at hc
          rcases List.mem_cons.mp hc with hc1 | hc2
          · subst hc1
            have hne : l.drop n ≠ [] := by
              intro hcontra
              rw [hcontra, cutIntoChunksGen_nil n hn] at hrest
              exact List.noConfusion hrest
            have : n < l.length := by
              have := List.length_pos.mpr hne
              rw [List.length_drop] at this
              omega
            rw [List.length_take]
            omega
          · rw [← hrest] at hc2
            exact ih2 c hc2
      · intro c hc
        rcases List.mem_cons.mp hc with hc1 | hc2
        · subst hc1
          constructor
          · intro hcontra
            have hlen := congrArg List.length hcontra
            rw [List.length_take] at hlen
            simp only [List.length_nil] at hlen
            omega
          · rw [List.length_take]
            omega
        · exact ih3 c hc2

/-- Witness for C10 at a concrete dataframe of five rows and chunk size
two: chunks `[1,2] [3,4] [5]` concatenate back to the input. -/
theorem cut_into_chunks_round_trip_witness :
    (cutIntoChunksGen [1, 2, 3, 4, 5] 2).flatten = [1, 2, 3, 4, 5]
    ∧ (∀ c ∈ (cutIntoChunksGen [1, 2, 3, 4, 5] 2).dropLast, c.length = 2)
    ∧ (∀ c ∈ cutIntoChunksGen [1, 2, 3, 4, 5] 2, c ≠ [] ∧ c.length ≤ 2) :=
  cut_into_chunks_round_trip [1, 2, 3, 4, 5] 2 (by omega)

/-! ## C7 -/

/-- C7: on the historical-data path, the first response whose security
data carries a `securityError` or at least one field exception makes
`_bdh_list` raise a `ValueError` carrying that response content; when no
response is bad, the output is exactly the field rows of all responses
with no sentinel substitution. -/
theorem bdh_list_raises_on_bad_response
    (pre : List HistSecurityData) (d : HistSecurityData) (post : List HistSecurityData)
    (hpre : ∀ m ∈ pre, m.hasSecurityError = false ∧ m.fieldExceptions = [])
    (hd : d.hasSecurityError = true ∨ d.fieldExceptions ≠ []) :
    bdhList (pre ++ d :: post) = Except.error (BdhError.valueError d)
    ∧ (∀ msgs : List HistSecurityData,
        (∀ m ∈ msgs, m.hasSecurityError = false ∧ m.fieldExceptions = []) →
        bdhList msgs = Except.ok (msgs.flatMap histRows)) := by
  have hok : ∀ msgs : List HistSecurityData,
      (∀ m ∈ msgs, m.hasSecurityError = false ∧ m.fieldExceptions = []) →
      bdhList msgs = Except.ok (msgs.flatMap histRows) := by
    intro msgs hmsgs
    induction msgs with
    | nil => rfl
    | cons m rest ih =>
      obtain ⟨h1, h2⟩ := hmsgs m (List.mem_cons_self m rest)
      have hnot : ¬(m.hasSecurityError ∨ m.fieldExceptions.length > 0) := by
        simp [h1, h2]
      rw [List.flatMap_cons]
      simp only [bdhList, if_neg hnot]
      rw [ih (fun x hx => hmsgs x (List.mem_cons_of_mem m hx))]
  refine ⟨?_, hok⟩
  have hbad : d.hasSecurityError ∨ d.fieldExceptions.length > 0 := by
    rcases hd with h | h
    · exact Or.inl (by simp [h])
    · exact Or.inr (List.length_pos.mpr h)
  induction pre with
  | nil => simp only [List.nil_append, bdhList, if_pos hbad]
  | cons m rest ih =>
    obtain ⟨h1, h2⟩ := hpre m (List.mem_cons_self m rest)
    have hnot : ¬(m.hasSecurityError ∨ m.fieldExceptions.length > 0) := by
      simp [h1, h2]
    have htail := ih (fun x hx => hpre x (List.mem_cons_of_mem m hx))
    rw [List.cons_append]
    simp only [bdhList, if_neg hnot, htail]

/-- Witness for C7: a well-formed first message followed by a message
with a security error makes the path raise, and a clean stream returns
its rows. -/
theorem bdh_list_raises_on_bad_response_witness :
    bdhList
        [⟨"IBM US Equity", false, [], [⟨"2024-01-02", [("date", "2024-01-02"), ("PX_LAST", "187.2")]⟩]⟩,
         ⟨"BAD US Equity", true, [], []⟩]
      = Except.error (BdhError.valueError ⟨"BAD US Equity", true, [], []⟩)
    ∧ bdhList [⟨"IBM US Equity", false, [], [⟨"2024-01-02", [("date", "2024-01-02"), ("PX_LAST", "187.2")]⟩]⟩]
      = Except.ok [("2024-01-02", "IBM US Equity", "PX_LAST", "187.2")] := by
  have h := bdh_list_raises_on_bad_response
    [⟨"IBM US Equity", false, [], [⟨"2024-01-02", [("date", "2024-01-02"), ("PX_LAST", "187.2")]⟩]⟩]
    ⟨"BAD US Equity", true, [], []⟩ []
    (by intro m hm; simp at hm; subst hm; exact ⟨rfl, rfl⟩)
    (Or.inl rfl)
  refine ⟨h.1, ?_⟩
  have h2 := h.2
    [⟨"IBM US Equity", false, [], [⟨"2024-01-02", [("date", "2024-01-02"), ("PX_LAST", "187.2")]⟩]⟩]
    (by intro m hm; simp at hm; subst hm; exact ⟨rfl, rfl⟩)
  rw [h2]
  rfl

/-! ## C3 -/

theorem parseRefFields_ok (sd : SecData) (flds : List String)
    (hnb : ∀ fld ∈ flds, ∀ rows, lookupField sd.fieldData fld ≠ some (FieldVal.bulk rows)) :
    parseRefFields (refNaVal sd.hasSecurityError) sd.security sd.fieldData flds
      = Except.ok (flds.map (refExpectedRow sd)) := by
  induction flds with
  | nil => rfl
  | cons fld rest ih =>
    have ih2 := ih (fun f hf => hnb f (List.mem_cons_of_mem fld hf))
    cases h : lookupField sd.fieldData fld with
    | none =>
      simp only [parseRefFields, h, ih2, List.map_cons]
      simp [refExpectedRow, h, refNaVal]
    | some fv =>
      cases fv with
      | scalar s =>
        simp only [parseRefFields, h, ih2, List.map_cons]
        simp [refExpectedRow, h]
      | bulk rows =>
        exact absurd h (by simpa using hnb fld (List.mem_cons_self fld rest) rows)

theorem parseRefSecs_ok (flds : List String) (sds : List SecData)
    (hfe : ∀ sd ∈ sds, ∀ fe ∈ sd.fieldExceptions, fe.subcategory ≠ "INVALID_FIELD")
    (hnb : ∀ sd ∈ sds, ∀ fld ∈ flds, ∀ rows,
      lookupField sd.fieldData fld ≠ some (FieldVal.bulk rows)) :
    parseRefSecs flds sds = Except.ok (refExpectedRows flds sds) := by
  induction sds with
  | nil => rfl
  | cons sd rest ih =>
    have hchk := checkFieldExceptions_ok_of sd.fieldExceptions
      (hfe sd (List.mem_cons_self sd rest))
    have hflds := parseRefFields_ok sd flds
      (hnb sd (List.mem_cons_self sd rest))
    have ih2 := ih (fun x hx => hfe x (List.mem_cons_of_mem sd hx))
      (fun x hx => hnb x (List.mem_cons_of_mem sd hx))
    simp only [parseRefSecs, parseRefSec, hchk, hflds, ih2]
    simp [refExpectedRows]

theorem parseBulkrefFields_ok (sd : SecData) (flds : List String)
    (hns : ∀ fld ∈ flds, ∀ s, lookupField sd.fieldData fld ≠ some (FieldVal.scalar s)) :
    parseBulkrefFields (refNaVal sd.hasSecurityError) sd.security sd.fieldData flds
      = Except.ok (flds.flatMap (bulkrefExpectedRows sd)) := by
  induction flds with
  | nil => rfl
  | cons fld rest ih =>
    have ih2 := ih (fun f hf => hns f (List.mem_cons_of_mem fld hf))
    cases h : lookupField sd.fieldData fld with
    | none =>
      simp only [parseBulkrefFields, h, ih2, List.flatMap_cons]
      simp [bulkrefExpectedRows, h]
    | some fv =>
      cases fv with
      | bulk rows =>
        simp only [parseBulkrefFields, h, ih2, List.flatMap_cons]
        simp [bulkrefExpectedRows, h]
      | scalar s =>
        exact absurd h (by simpa using hns fld (List.mem_cons_self fld rest) s)

theorem parseBulkrefSecs_ok (flds : List String) (sds : List SecData)
    (hfe : ∀ sd ∈ sds, ∀ fe ∈ sd.fieldExceptions, fe.subcategory ≠ "INVALID_FIELD")
    (hns : ∀ sd ∈ sds, ∀ fld ∈ flds, ∀ s,
      lookupField sd.fieldData fld ≠ some (FieldVal.scalar s)) :
    parseBulkrefSecs flds sds = Except.ok (bulkrefExpectedAll flds sds) := by
  induction sds with
  | nil => rfl
  | cons sd rest ih =>
    have hchk := checkFieldExceptions_ok_of sd.fieldExceptions
      (hfe sd (List.mem_cons_self sd rest))
    have hflds := parseBulkrefFields_ok sd flds
      (hns sd (List.mem_cons_self sd rest))
    have ih2 := ih (fun x hx => hfe x (List.mem_cons_of_mem sd hx))
      (fun x hx => hns x (List.mem_cons_of_mem sd hx))
    simp only [parseBulkrefSecs, parseBulkrefSec, hchk, hflds, ih2]
    simp [bulkrefExpectedAll]

/-- C3: when a reference-data response marks a security with a
`securityError`, the reconcilers do not raise on its account: each
requested field absent from that security's field data is emitted with
the sentinel string value (`'security not found'`), and for a security
without a `securityError` each absent field is emitted with `NaN` — for
`_parse_ref` (scalar path, provided no field exception is an
`INVALID_FIELD` and no requested field holds bulk data) and for
`_parse_bulkref` (bulk path, provided no requested field holds scalar
data). -/
theorem parse_ref_security_error_sentinels (flds : List String) (msgs : List (List SecData)) :
    ((∀ sd ∈ msgs.flatten, ∀ fe ∈ sd.fieldExceptions, fe.subcategory ≠ "INVALID_FIELD") →
     (∀ sd ∈ msgs.flatten, ∀ fld ∈ flds, ∀ rows,
        lookupField sd.fieldData fld ≠ some (FieldVal.bulk rows)) →
      parseRef flds msgs = Except.ok (refExpectedRows flds msgs.flatten)
      ∧ (∀ sd ∈ msgs.flatten, ∀ fld ∈ flds, lookupField sd.fieldData fld = none →
          (sd.hasSecurityError = true →
            (sd.security, fld, BVal.secNotFound) ∈ refExpectedRows flds msgs.flatten)
          ∧ (sd.hasSecurityError = false →
            (sd.security, fld, BVal.nan) ∈ refExpectedRows flds msgs.flatten)))
    ∧ ((∀ sd ∈ msgs.flatten, ∀ fe ∈ sd.fieldExceptions, fe.subcategory ≠ "INVALID_FIELD") →
       (∀ sd ∈ msgs.flatten, ∀ fld ∈ flds, ∀ s,
          lookupField sd.fieldData fld ≠ some (FieldVal.scalar s)) →
        parseBulkref flds msgs = Except.ok (bulkrefExpectedAll flds msgs.flatten)) := by
  constructor
  · intro hfe hnb
    refine ⟨parseRefSecs_ok flds msgs.flatten hfe hnb, ?_⟩
    intro sd hsd fld hfld hnone
    have hmem : refExpectedRow sd fld ∈ refExpectedRows flds msgs.flatten :=
      List.mem_flatMap.mpr ⟨sd, hsd, List.mem_map.mpr ⟨fld, hfld, rfl⟩⟩
    constructor
    · intro herr
      have : refExpectedRow sd fld = (sd.security, fld, BVal.secNotFound) := by
        simp [refExpectedRow, hnone, herr]
      rwa [this] at hmem
    · intro herr
      have : refExpectedRow sd fld = (sd.security, fld, BVal.nan) := by
        simp [refExpectedRow, hnone, herr]
      rwa [this] at hmem
  · intro hfe hns
    exact parseBulkrefSecs_ok flds msgs.flatten hfe hns

/-- Witness for C3: one event holding an errored security and a good
security, with the single requested field absent from both, yields the
two sentinel rows on the scalar path and the two all-sentinel rows on
the bulk path, raising nowhere. -/
theorem parse_ref_security_error_sentinels_witness :
    parseRef ["PX_LAST"] [[⟨"BAD US Equity", true, [], []⟩, ⟨"IBM US Equity", false, [], []⟩]]
      = Except.ok [("BAD US Equity", "PX_LAST", BVal.secNotFound),
                   ("IBM US Equity", "PX_LAST", BVal.nan)]
    ∧ parseBulkref ["INDX_MWEIGHT"]
        [[⟨"BAD US Equity", true, [], []⟩, ⟨"IBM US Equity", false, [], []⟩]]
      = Except.ok [("BAD US Equity", "INDX_MWEIGHT", BVal.secNotFound, BVal.secNotFound, BVal.secNotFound),
                   ("IBM US Equity", "INDX_MWEIGHT", BVal.nan, BVal.nan, BVal.nan)] := by
  have h := parse_ref_security_error_sentinels ["PX_LAST"]
    [[⟨"BAD US Equity", true, [], []⟩, ⟨"IBM US Equity", false, [], []⟩]]
  have h2 := parse_ref_security_error_sentinels ["INDX_MWEIGHT"]
    [[⟨"BAD US Equity", true, [], []⟩, ⟨"IBM US Equity", false, [], []⟩]]
  constructor
  · refine ((h.1 (by decide) ?_).1).trans (by rfl)
    intro sd hsd fld hfld rows
    simp only [List.flatten, List.append_nil, List.mem_cons, List.not_mem_nil, or_false] at hsd
    rcases hsd with rfl | rfl <;> simp [lookupField, lookupFirst]
  · refine (h2.2 (by decide) ?_).trans (by rfl)
    intro sd hsd fld hfld s
    simp only [List.flatten, List.append_nil, List.mem_cons, List.not_mem_nil, or_false] at hsd
    rcases hsd with rfl | rfl <;> simp [lookupField, lookupFirst]

/-! ## C6 -/

theorem isinMatch_eq_claimIsinTest (cs : List Char) :
    isinMatch cs = claimIsinTest cs := by
  rcases cs with _ | ⟨c1, _ | ⟨c2, _ | ⟨a1, _ | ⟨a2, _ | ⟨a3, _ | ⟨a4, _ | ⟨a5,
    _ | ⟨a6, _ | ⟨a7, _ | ⟨a8, _ | ⟨a9, _ | ⟨d, rest⟩⟩⟩⟩⟩⟩⟩⟩⟩⟩⟩⟩ <;>
    simp [isinMatch, claimIsinTest, Bool.and_assoc]

theorem parseTicker_eq_claimNormalize (t : String) :
    parseTicker t = claimNormalize t := by
  simp only [parseTicker, claimNormalize, isinMatch_eq_claimIsinTest]

/-- C6: the normalizer returns one normalized ticker per input in order;
on the uppercased, stripped form, an ISIN-shaped input becomes `/isin/`
plus its first whitespace-separated token plus the optional two-character
exchange-code suffix, a `' SEDOL'` input becomes `/sedol/` plus its first
token plus the optional suffix, and every other input is returned
uppercased and stripped but otherwise unchanged. -/
theorem parse_tickers_normalizes_in_order (tickers : List String) :
    (parseTickers tickers).length = tickers.length
    ∧ ∀ i (h1 : i < tickers.length) (h2 : i < (parseTickers tickers).length),
        (parseTickers tickers).get ⟨i, h2⟩ = claimNormalize (tickers.get ⟨i, h1⟩) := by
  constructor
  · exact List.length_map tickers parseTicker
  · intro i h1 h2
    simp only [parseTickers, List.get_eq_getElem, List.getElem_map]
    exact parseTicker_eq_claimNormalize _

/-- Witness for C6 on a concrete mixed list: an ISIN with an exchange
code, a SEDOL, and a plain exchange-qualified ticker. -/
theorem parse_tickers_normalizes_in_order_witness :
    (parseTickers ["us0378331005 ln equity", "b1yw440 sedol ln equity", " ibm us equity "]).get
        ⟨0, by decide⟩
      = claimNormalize "us0378331005 ln equity"
    ∧ (parseTickers ["us0378331005 ln equity", "b1yw440 sedol ln equity", " ibm us equity "]).get
        ⟨2, by decide⟩
      = claimNormalize " ibm us equity " := by
  constructor
  · exact (parse_tickers_normalizes_in_order
      ["us0378331005 ln equity", "b1yw440 sedol ln equity", " ibm us equity "]).2 0
      (by decide) (by decide)
  · exact (parse_tickers_normalizes_in_order
      ["us0378331005 ln equity", "b1yw440 sedol ln equity", " ibm us equity "]).2 2
      (by decide) (by decide)

/-! ## C1 -/

theorem refCalls_map_fst (input : List (String × Combo)) :
    (refCalls input).map Prod.fst = uniqueFirst (input.map Prod.snd) := by
  have hcomp : (Prod.fst ∘ fun c : Combo => (c, groupUniqueTickers input c)) = id := rfl
  rw [refCalls, List.map_map, hcomp, List.map_id]

theorem mem_groupUniqueTickers (input : List (String × Combo)) (c : Combo) (t : String) :
    t ∈ groupUniqueTickers input c ↔ (t, c) ∈ input := by
  rw [groupUniqueTickers, mem_uniqueFirst]
  simp only [List.mem_map, List.mem_filter, decide_eq_true_eq]
  constructor
  · rintro ⟨p, ⟨hp, hc⟩, ht⟩
    have : p = (t, c) := Prod.ext ht hc
    rwa [this] at hp
  · intro h
    exact ⟨(t, c), ⟨h, rfl⟩, rfl⟩

/-- C1: `_BDP` partitions the securities by distinct override
combination and issues exactly one `con.ref` round-trip per distinct
combination — the combinations of the issued calls are distinct and are
exactly those occurring in the request — and each call carries the
group's unique securities: no duplicates, and membership exactly for the
request rows with that combination. -/
theorem bdp_one_ref_call_per_override_combo (input : List (String × Combo)) :
    ((refCalls input).map Prod.fst).Nodup
    ∧ (∀ c : Combo, c ∈ (refCalls input).map Prod.fst ↔ c ∈ input.map Prod.snd)
    ∧ (∀ c secs, (c, secs) ∈ refCalls input →
        secs.Nodup ∧ ∀ t : String, t ∈ secs ↔ (t, c) ∈ input) := by
  refine ⟨?_, ?_, ?_⟩
  · rw [refCalls_map_fst]
    exact nodup_uniqueFirst _
  · intro c
    rw [refCalls_map_fst, mem_uniqueFirst]
  · intro c secs hmem
    obtain ⟨c2, _, heq⟩ := List.mem_map.mp hmem
    obtain ⟨hc, hsecs⟩ := Prod.mk.injEq .. ▸ heq
    subst hc
    subst hsecs
    refine ⟨nodup_uniqueFirst _, ?_⟩
    intro t
    exact mem_groupUniqueTickers input c2 t

/-- Witness for C1 on a concrete request with a duplicated (ticker,
override) row: the duplicated security appears once in its group's call
and membership matches the request rows. -/
theorem bdp_one_ref_call_per_override_combo_witness :
    ("T1" ∈ groupUniqueTickers [("T1", ["o1"]), ("T2", ["o2"]), ("T1", ["o1"])] ["o1"]
      ↔ ("T1", ["o1"]) ∈ [("T1", ["o1"]), ("T2", ["o2"]), ("T1", ["o1"])])
    ∧ (groupUniqueTickers [("T1", ["o1"]), ("T2", ["o2"]), ("T1", ["o1"])] ["o1"]).Nodup := by
  have h := (bdp_one_ref_call_per_override_combo
      [("T1", ["o1"]), ("T2", ["o2"]), ("T1", ["o1"])]).2.2
    ["o1"] (groupUniqueTickers [("T1", ["o1"]), ("T2", ["o2"]), ("T1", ["o1"])] ["o1"])
    (by decide)
  exact ⟨h.2 "T1", h.1⟩

/-! ## C2 -/

theorem allRefData_value (input : List (String × Combo)) (v : String → Combo → String) :
    ∀ r ∈ allRefData input v, r.2 = v r.1.1 r.1.2 := by
  intro r hr
  simp only [allRefData, List.mem_flatMap, List.mem_map] at hr
  obtain ⟨call, _, t, _, heq⟩ := hr
  rw [← heq]

theorem allRefData_covers (input : List (String × Combo)) (v : String → Combo → String)
    (t : String) (c : Combo) (h : (t, c) ∈ input) :
    ((t, c), v t c) ∈ allRefData input v := by
  simp only [allRefData, List.mem_flatMap]
  refine ⟨(c, groupUniqueTickers input c), ?_, ?_⟩
  · simp only [refCalls, List.mem_map]
    refine ⟨c, ?_, rfl⟩
    rw [mem_uniqueFirst]
    exact List.mem_map.mpr ⟨(t, c), h, rfl⟩
  · simp only [List.mem_map]
    exact ⟨t, (mem_groupUniqueTickers input c t).mpr h, rfl⟩

theorem lookupFirst_allRefData (input : List (String × Combo)) (v : String → Combo → String)
    (t : String) (c : Combo) (h : (t, c) ∈ input) :
    lookupFirst (allRefData input v) (t, c) = some (v t c) := by
  unfold lookupFirst
  cases hf : (allRefData input v).find? (fun r => decide (r.1 = (t, c))) with
  | none =>
    exfalso
    have := List.find?_eq_none.mp hf ((t, c), v t c) (allRefData_covers input v t c h)
    simp at this
  | some r =>
    have h1 := List.find?_some hf
    have h2 := List.mem_of_find?_eq_some hf
    simp only [decide_eq_true_eq] at h1
    have h3 := allRefData_value input v r h2
    show some r.2 = some (v t c)
    rw [h3, h1]

/-- C2: `_BDP`'s reconciled output carries exactly one value per input
ticker, in input order — the i-th output value is the vendor value of
the i-th (translated ticker, override combination) row, duplicates
included — and the post-merge check raises a `ValueError` whenever the
reconciled row count differs from the number of input tickers. -/
theorem bdp_output_input_aligned (input : List (String × Combo))
    (v : String → Combo → String) :
    bdpOutput input v = Except.ok (input.map (fun p => some (v p.1 p.2)))
    ∧ (∀ (merged : List ((String × Combo) × Option String)) (n : Nat),
        merged.length ≠ n →
        reconcileCheck n merged =
          Except.error "uneven length of response tickers to request tickers") := by
  constructor
  · unfold bdpOutput reconcileCheck
    rw [if_neg (by simp [mergeLeftM1])]
    refine congrArg Except.ok ?_
    rw [mergeLeftM1, List.map_map]
    refine List.map_congr_left ?_
    intro p hp
    simp only [Function.comp]
    have : (p.1, p.2) ∈ input := by
      rwa [Prod.mk.eta]
    rw [← Prod.mk.eta (p := p), lookupFirst_allRefData input v p.1 p.2 this]
  · intro merged n h
    simp [reconcileCheck, h]

/-- Witness for C2 on a concrete request with a duplicate ticker and a
short merged list for the count check. -/
theorem bdp_output_input_aligned_witness :
    bdpOutput [("T1", ["o1"]), ("T2", ["o2"]), ("T1", ["o1"])] (fun t _ => t ++ "!")
      = Except.ok [some "T1!", some "T2!", some "T1!"]
    ∧ reconcileCheck 5 ([] : List ((String × Combo) × Option String))
      = Except.error "uneven length of response tickers to request tickers" := by
  have h := bdp_output_input_aligned [("T1", ["o1"]), ("T2", ["o2"]), ("T1", ["o1"])]
    (fun t _ => t ++ "!")
  exact ⟨h.1.trans (by rfl), h.2 [] 5 (by decide)⟩

/-! ## C5 -/

theorem groupDiffAux_shift (rest : List BbatRow) :
    ∀ r : BbatRow, groupDiffAux (some r) rest ++ [none] = quoteLifeClaim (r :: rest) := by
  induction rest with
  | nil => intro r; rfl
  | cons s rest2 ih =>
    intro r
    rw [groupDiffAux, quoteLifeClaim, List.cons_append, ih s]

theorem quoteLifeCode_eq_claim (rows : List BbatRow) :
    quoteLifeCode rows = quoteLifeClaim rows := by
  cases rows with
  | nil => rfl
  | cons r rest =>
    rw [quoteLifeCode, quoteLifeDiff, groupDiffAux, shiftUp]
    exact groupDiffAux_shift rest r

theorem twa_spread_terms_eq (spreads : List (Option ℚ)) :
    ∀ lifes : List (Option ℚ),
      List.zipWith (· * ·) (spreads.map (fun s => s.getD 0))
          (List.zipWith adjQuoteLife spreads lifes)
        = List.zipWith
            (fun (s : Option ℚ) (t : Option ℚ) =>
              match s with
              | none => (0 : ℚ)
              | some sv => sv * t.getD 0)
            spreads lifes := by
  induction spreads with
  | nil => intro lifes; rfl
  | cons s spreads2 ih =>
    intro lifes
    cases lifes with
    | nil => rfl
    | cons t lifes2 =>
      simp only [List.map_cons, List.zipWith_cons_cons, ih lifes2]
      refine congrArg (· :: _) ?_
      cases s with
      | none => simp [adjQuoteLife]
      | some sv => simp [adjQuoteLife]

/-- C5: the summary `twa_spread_bps` statistic equals the sum over rows
of (bid-ask spread in basis points times the quote's lifetime, with rows
carrying no valid spread contributing zero seconds) divided by the sum
of those adjusted lifetimes, where a quote's lifetime is the time
difference to the next row within the same ticker and calendar date. -/
theorem twa_spread_bps_summary_spec (rows : List BbatRow) :
    quoteLifeCode rows = quoteLifeClaim rows
    ∧ twaSpreadBpsCode (rows.map (fun r => r.spreadBps)) (quoteLifeCode rows)
      = twaSpreadBpsClaim rows := by
  refine ⟨quoteLifeCode_eq_claim rows, ?_⟩
  rw [twaSpreadBpsCode, quoteLifeCode_eq_claim rows, twaSpreadBpsClaim,
    twa_spread_terms_eq (rows.map (fun r => r.spreadBps)) (quoteLifeClaim rows)]

end Pdblpi
